import Mathlib

/-!
Verification of the core of the `go-blockchain` repository: a hash-linked
block chain with SHA-256 proof-of-work mining and a persisted tip pointer.

The development shallowly embeds `blockchain/block.go`.  Byte strings are
`List Nat` (each entry a byte value), Go `int`/`int64` become `Int` (the
mining loop counter, which never leaves `[0, 2^63-1]`, is a `Nat`), and
arbitrary-precision `big.Int` digest comparisons are plain `Nat`
comparisons.  Side effects are made explicit: the bolt database is a value
threaded through the operations, `log.Fatal` becomes an `Option`/failure
result, and `time.Now()` becomes an explicit timestamp argument.
-/

namespace GoChain

/-! ## SHA-256 over byte lists (crypto/sha256)

A direct executable embedding of FIPS-180-4 SHA-256, the digest function
used by `ProofOfWork`.  Words are `Nat` reduced mod `2^32`; recursion is
fuel-based so the kernel can evaluate digests on concrete inputs. -/

/-- Modulus for 32-bit words. -/
def M32 : Nat := 4294967296

/-- Rotate a 32-bit word right by `n` bit positions. -/
def rotr (n x : Nat) : Nat := ((x >>> n) ||| (x <<< (32 - n))) % M32

/-- The 64 SHA-256 round constants. -/
def shaK : List Nat :=
  [1116352408, 1899447441, 3049323471, 3921009573, 961987163,
   1508970993, 2453635748, 2870763221, 3624381080, 310598401,
   607225278, 1426881987, 1925078388, 2162078206, 2614888103,
   3248222580, 3835390401, 4022224774, 264347078, 604807628,
   770255983, 1249150122, 1555081692, 1996064986, 2554220882,
   2821834349, 2952996808, 3210313671, 3336571891, 3584528711,
   113926993, 338241895, 666307205, 773529912, 1294757372,
   1396182291, 1695183700, 1986661051, 2177026350, 2456956037,
   2730485921, 2820302411, 3259730800, 3345764771, 3516065817,
   3600352804, 4094571909, 275423344, 430227734, 506948616,
   659060556, 883997877, 958139571, 1322822218, 1537002063,
   1747873779, 1955562222, 2024104815, 2227730452, 2361852424,
   2428436474, 2756734187, 3204031479, 3329325298]

/-- SHA-256 padding: append `0x80`, zeros to 56 mod 64, then the 64-bit
big-endian bit length. -/
def sha256pad (msg : List Nat) : List Nat :=
  let l := msg.length
  let k := (119 - l % 64) % 64
  let bitLen := 8 * l
  msg ++ [0x80] ++ List.replicate k 0 ++
    [(bitLen >>> 56) % 256, (bitLen >>> 48) % 256, (bitLen >>> 40) % 256, (bitLen >>> 32) % 256,
     (bitLen >>> 24) % 256, (bitLen >>> 16) % 256, (bitLen >>> 8) % 256, bitLen % 256]

/-- Group bytes into 32-bit big-endian words. -/
def bytesToWords : List Nat → List Nat
  | b0 :: b1 :: b2 :: b3 :: rest => (((b0 * 256 + b1) * 256 + b2) * 256 + b3) :: bytesToWords rest
  | _ => []

/-- SHA-256 message-schedule sigma-0. -/
def smallSigma0 (x : Nat) : Nat := (rotr 7 x) ^^^ (rotr 18 x) ^^^ (x >>> 3)

/-- SHA-256 message-schedule sigma-1. -/
def smallSigma1 (x : Nat) : Nat := (rotr 17 x) ^^^ (rotr 19 x) ^^^ (x >>> 10)

/-- SHA-256 compression Sigma-0. -/
def bigSigma0 (x : Nat) : Nat := (rotr 2 x) ^^^ (rotr 13 x) ^^^ (rotr 22 x)

/-- SHA-256 compression Sigma-1. -/
def bigSigma1 (x : Nat) : Nat := (rotr 6 x) ^^^ (rotr 11 x) ^^^ (rotr 25 x)

/-- Extend the first 16 schedule words by `fuel` further words. -/
def scheduleAux : Nat → List Nat → List Nat
  | 0, acc => acc
  | fuel + 1, acc =>
    let n := acc.length
    let w := (acc.getD (n - 16) 0 + smallSigma0 (acc.getD (n - 15) 0) +
              acc.getD (n - 7) 0 + smallSigma1 (acc.getD (n - 2) 0)) % M32
    scheduleAux fuel (acc ++ [w])

/-- The eight SHA-256 working registers. -/
structure Regs where
  a : Nat
  b : Nat
  c : Nat
  d : Nat
  e : Nat
  f : Nat
  g : Nat
  h : Nat

/-- One SHA-256 compression round; `kw` is the round constant paired with the
schedule word. -/
def compressStep (r : Regs) (kw : Nat × Nat) : Regs :=
  let t1 := (r.h + bigSigma1 r.e + ((r.e &&& r.f) ^^^ ((r.e ^^^ 0xffffffff) &&& r.g)) + kw.1 + kw.2) % M32
  let t2 := (bigSigma0 r.a + ((r.a &&& r.b) ^^^ (r.a &&& r.c) ^^^ (r.b &&& r.c))) % M32
  ⟨(t1 + t2) % M32, r.a, r.b, r.c, (r.d + t1) % M32, r.e, r.f, r.g⟩

/-- Process one 64-byte chunk, updating the eight-word state. -/
def processChunk (h : List Nat) (chunk : List Nat) : List Nat :=
  let w := scheduleAux 48 (bytesToWords chunk)
  let r0 : Regs := ⟨h.getD 0 0, h.getD 1 0, h.getD 2 0, h.getD 3 0,
                    h.getD 4 0, h.getD 5 0, h.getD 6 0, h.getD 7 0⟩
  let r := (shaK.zip w).foldl compressStep r0
  [(h.getD 0 0 + r.a) % M32, (h.getD 1 0 + r.b) % M32, (h.getD 2 0 + r.c) % M32,
   (h.getD 3 0 + r.d) % M32, (h.getD 4 0 + r.e) % M32, (h.getD 5 0 + r.f) % M32,
   (h.getD 6 0 + r.g) % M32, (h.getD 7 0 + r.h) % M32]

/-- Process `fuel` chunks of 64 bytes each. -/
def processChunks : Nat → List Nat → List Nat → List Nat
  | 0, h, _ => h
  | fuel + 1, h, bytes => processChunks fuel (processChunk h (bytes.take 64)) (bytes.drop 64)

/-- SHA-256 of a byte list, as the 32 digest bytes in emission order. -/
def sha256 (msg : List Nat) : List Nat :=
  let padded := sha256pad msg
  let h := processChunks (padded.length / 64)
    [1779033703, 3144134277, 1013904242, 2773480762, 1359893119, 2600822924, 528734635, 1541459225]
    padded
  h.flatMap (fun w => [(w >>> 24) % 256, (w >>> 16) % 256, (w >>> 8) % 256, w % 256])

/-- A byte list read as an unsigned big-endian integer: the reading
`big.Int.SetBytes` gives a digest before it is compared with the target. -/
def bytesToNat (bs : List Nat) : Nat := bs.foldl (fun acc b => acc * 256 + b) 0

/-! ## Decimal formatting and byte-slice join (strconv / bytes)

`strconv.FormatInt(v, 10)` and `bytes.Join` are Go standard-library
collaborators of `prepareData`; they are embedded by their documented
behaviour: minimal decimal ASCII with a leading `-` for negatives, and
concatenation of the slices with the separator between consecutive ones. -/

/-- Decimal ASCII digits of a natural number, most significant first.
The fuel argument dominates the number of divisions by 10. -/
def formatNatAux : Nat → Nat → List Nat
  | 0, _ => []
  | fuel + 1, n => if n < 10 then [48 + n] else formatNatAux fuel (n / 10) ++ [48 + n % 10]

/-- Decimal ASCII of a natural number. -/
def formatNat (n : Nat) : List Nat := formatNatAux (n + 1) n

/-- `strconv.FormatInt(v, 10)`: decimal ASCII text of a signed integer. -/
def formatInt : Int → List Nat
  | .ofNat n => formatNat n
  | .negSucc m => 45 :: formatNat (m + 1)

/-- `bytes.Join(ss, sep)`: the slices of `ss` concatenated with `sep`
between consecutive slices. -/
def bytesJoin (ss : List (List Nat)) (sep : List Nat) : List Nat :=
  (List.intersperse sep ss).flatten

/-! ## Block and proof of work (block.go) -/

/-- `targetBits`: the fixed mining difficulty of the repository. -/
def targetBits : Nat := 24

/-- `math.MaxInt64`, the bound of the mining loop in `ProofOfWork.Run`. -/
def maxNonce : Nat := 9223372036854775807

/-- The `Block` struct: timestamp, payload, previous-block hash, own hash,
and the proof-of-work nonce. -/
structure Block where
  Timestamp : Int
  Data : List Nat
  PrevBlockHash : List Nat
  Hash : List Nat
  Nonce : Int
deriving DecidableEq

/-- The `ProofOfWork` struct: a block paired with the numeric target its
digest must fall strictly below. -/
structure ProofOfWork where
  block : Block
  target : Nat

/-- `NewProofOfWork`: pairs the block with the target `1 << (256 - targetBits)`. -/
def NewProofOfWork (b : Block) : ProofOfWork :=
  { block := b, target := 1 <<< (256 - targetBits) }

/-- `ProofOfWork.prepareData`: joins, with an empty separator, the block's
previous hash, its data, and the decimal ASCII of the timestamp, the nonce
argument, and `targetBits`. -/
def ProofOfWork.prepareData (pow : ProofOfWork) (nonce : Int) : List Nat :=
  bytesJoin
    [pow.block.PrevBlockHash,
     pow.block.Data,
     formatInt pow.block.Timestamp,
     formatInt nonce,
     formatInt (targetBits : Int)]
    []

/-- The digest of the block's prepared data at a given nonce, read as an
unsigned big-endian integer (the quantity `Run` and `Validate` compare with
the target). -/
def ProofOfWork.digestVal (pow : ProofOfWork) (nonce : Nat) : Nat :=
  bytesToNat (sha256 (pow.prepareData (nonce : Int)))

/-- The loop of `ProofOfWork.Run`: starting from `nonce`, with `hash`
holding the digest bytes computed last, try `fuel` more nonces; stop at the
first digest strictly below the target, else fall out of the loop with the
nonce counter past the last tried value and the last computed digest. -/
def ProofOfWork.RunGo (pow : ProofOfWork) : Nat → Nat → List Nat → Nat × List Nat
  | 0, nonce, hash => (nonce, hash)
  | fuel + 1, nonce, _ =>
    let h := sha256 (pow.prepareData (nonce : Int))
    if bytesToNat h < pow.target then (nonce, h)
    else pow.RunGo fuel (nonce + 1) h

/-- `ProofOfWork.Run`: the mining search, trying nonces `0, 1, …` while the
counter stays below `maxNonce`; `hash` starts as the zeroed `[32]byte`. -/
def ProofOfWork.Run (pow : ProofOfWork) : Nat × List Nat :=
  pow.RunGo maxNonce 0 (List.replicate 32 0)

/-- `ProofOfWork.Validate`: recompute the digest at the block's own stored
nonce and compare it with the target. -/
def ProofOfWork.Validate (pow : ProofOfWork) : Bool :=
  bytesToNat (sha256 (pow.prepareData pow.block.Nonce)) < pow.target

/-- `NewBlock`: build the candidate block (current time, payload,
predecessor hash, empty hash, nonce 0), run the mining search, and store
the returned nonce and hash.  `time.Now().Unix()` is the explicit `ts`
argument. -/
def NewBlock (data : List Nat) (prevBlockHash : List Nat) (ts : Int) : Block :=
  let pow := NewProofOfWork
    { Timestamp := ts, Data := data, PrevBlockHash := prevBlockHash, Hash := [], Nonce := 0 }
  { Timestamp := ts, Data := data, PrevBlockHash := prevBlockHash,
    Hash := pow.Run.2, Nonce := (pow.Run.1 : Int) }

/-- The ASCII bytes of the string `"Genesis Block"`. -/
def genesisData : List Nat := [71, 101, 110, 101, 115, 105, 115, 32, 66, 108, 111, 99, 107]

/-- `NewGenesisBlock`: the genesis block is mined by `NewBlock` from the
payload `"Genesis Block"` and an empty previous hash. -/
def NewGenesisBlock (ts : Int) : Block := NewBlock genesisData [] ts

/-! ## Serialization (Block.Serialize / DeseralizeBlock)

The source delegates the byte format to `encoding/gob`, which is Go
standard-library code outside this repository.  Following the spec, the
format itself is opaque; what matters is that it is a deterministic
encoding of all five fields whose decoder is an exact inverse, and that a
record that cannot be parsed is a fatal condition.  The encoder below is a
concrete such format: each natural number is written in unary (`n` ones and
a terminating zero), a byte string is its length followed by its bytes, an
integer is a sign byte and its magnitude. -/

/-- Modelled from the spec: a deterministic encoding of a natural number
(unary, ones terminated by a zero), standing in for gob's integer wire
format. -/
def encNat (n : Nat) : List Nat := List.replicate n 1 ++ [0]

/-- Modelled from the spec: a length-prefixed byte string. -/
def encBytes (l : List Nat) : List Nat := encNat l.length ++ l

/-- Modelled from the spec: a signed integer as a sign byte and magnitude. -/
def encInt : Int → List Nat
  | .ofNat n => 0 :: encNat n
  | .negSucc m => 1 :: encNat (m + 1)

/-- Modelled from the spec: `Block.Serialize`, the deterministic encoding of
the five block fields, in declaration order. -/
def Block.Serialize (b : Block) : List Nat :=
  encInt b.Timestamp ++ encBytes b.Data ++ encBytes b.PrevBlockHash ++
    encBytes b.Hash ++ encInt b.Nonce

/-- Decoder for `encNat`; `none` is a parse failure. -/
def decNat : List Nat → Option (Nat × List Nat)
  | 1 :: rest => (decNat rest).map (fun p => (p.1 + 1, p.2))
  | 0 :: rest => some (0, rest)
  | _ => none

/-- Decoder for `encBytes`. -/
def decBytes (s : List Nat) : Option (List Nat × List Nat) :=
  match decNat s with
  | none => none
  | some (n, rest) => if n ≤ rest.length then some (rest.take n, rest.drop n) else none

/-- Decoder for `encInt`. -/
def decInt : List Nat → Option (Int × List Nat)
  | 0 :: rest => (decNat rest).map (fun p => ((p.1 : Int), p.2))
  | 1 :: rest => (decNat rest).map (fun p => (-(p.1 : Int), p.2))
  | _ => none

/-- Modelled from the spec: `DeseralizeBlock` (the source's spelling), the
exact inverse of `Block.Serialize`; `none` models the `log.Fatal` taken on
a malformed record. -/
def DeseralizeBlock (d : List Nat) : Option Block :=
  match decInt d with
  | none => none
  | some (ts, r1) =>
    match decBytes r1 with
    | none => none
    | some (data, r2) =>
      match decBytes r2 with
      | none => none
      | some (prev, r3) =>
        match decBytes r3 with
        | none => none
        | some (hash, r4) =>
          match decInt r4 with
          | none => none
          | some (nonce, r5) =>
            match r5 with
            | [] => some { Timestamp := ts, Data := data, PrevBlockHash := prev,
                           Hash := hash, Nonce := nonce }
            | _ => none

/-! ## The persisted store (boltdb collaborator) and the chain operations

The bolt engine is an external collaborator: an atomic transactional store
of byte-string keys and values with one bucket.  A bucket is an association
list where a put shadows older entries, which gives exactly the map
semantics of `bolt.Bucket.Get`/`Put`; the whole database is `Option Bucket`
(`none`: the `Blocks` bucket does not exist).  Transactions collapse to
pure state passing, which is faithful because the source runs one operation
per transaction.  Operations whose Go version calls `log.Fatal` on an error
return `none` instead (an aborted process, not a value). -/

/-- The key-value content of the `Blocks` bucket. -/
abbrev Bucket := List (List Nat × List Nat)

/-- The database: the `Blocks` bucket, when it exists. -/
abbrev DB := Option Bucket

/-- The reserved tip-pointer key `"l"` (ASCII 108). -/
def lKey : List Nat := [108]

/-- `bolt.Bucket.Get`: the most recently put value under a key. -/
def bGet : Bucket → List Nat → Option (List Nat)
  | [], _ => none
  | (k, v) :: rest, key => if key = k then some v else bGet rest key

/-- `bolt.Bucket.Get` as Go callers see it: a missing key yields a nil
slice, here the empty byte string. -/
def bGetD (bkt : Bucket) (key : List Nat) : List Nat := (bGet bkt key).getD []

/-- `bolt.Bucket.Put`: bind a key to a value, shadowing older entries. -/
def bPut (bkt : Bucket) (k v : List Nat) : Bucket := (k, v) :: bkt

/-- A lookup through the database: `none` when the bucket is missing or the
key is absent. -/
def dbGet (db : DB) (key : List Nat) : Option (List Nat) :=
  match db with
  | none => none
  | some bkt => bGet bkt key

/-- The in-memory chain handle: the cached tip hash (the `Db` handle of the
Go struct is the explicitly threaded `DB` value). -/
structure Blockchain where
  tip : List Nat
deriving DecidableEq

/-- `NewBlockchain`: when the `Blocks` bucket does not exist, create it,
mine the genesis block and write its record and the tip pointer; otherwise
read the tip pointer and leave the store untouched. -/
def NewBlockchain (db : DB) (ts : Int) : Blockchain × DB :=
  match db with
  | none =>
    let genesis := NewGenesisBlock ts
    let bkt := bPut (bPut [] genesis.Hash genesis.Serialize) lKey genesis.Hash
    ({ tip := genesis.Hash }, some bkt)
  | some bkt => ({ tip := bGetD bkt lKey }, some bkt)

/-- `Blockchain.AddBlock`: read the last hash from the tip pointer, mine a
new block on top of it, and, in one write transaction, store the block
record and overwrite the tip pointer.  `none` models the `log.Fatal` taken
when the bucket is missing. -/
def Blockchain.AddBlock (_bc : Blockchain) (db : DB) (data : List Nat) (ts : Int) :
    Option (Blockchain × DB) :=
  match db with
  | none => none
  | some bkt =>
    let lastHash := bGetD bkt lKey
    let newBlock := NewBlock data lastHash ts
    some ({ tip := newBlock.Hash },
          some (bPut (bPut bkt newBlock.Hash newBlock.Serialize) lKey newBlock.Hash))

/-- `BlockchainIterator.Next`: fetch and decode the record at the cursor
hash and advance the cursor to the block's previous hash.  `none` models
the `log.Fatal` taken when the bucket is missing or the record cannot be
decoded (in particular, the nil slice `bolt` returns for a key that was
never written). -/
def iterNext (db : DB) (currentHash : List Nat) : Option (Block × List Nat) :=
  match db with
  | none => none
  | some bkt =>
    let encodedBlock := bGetD bkt currentHash
    match DeseralizeBlock encodedBlock with
    | none => none
    | some block => some (block, block.PrevBlockHash)

/-- `n` successive calls of `BlockchainIterator.Next` starting at a cursor,
collecting the blocks they yield. -/
def iterN (db : DB) (currentHash : List Nat) : Nat → Option (List Block)
  | 0 => some []
  | n + 1 =>
    match iterNext db currentHash with
    | none => none
    | some (b, next) => (iterN db next n).map (fun l => b :: l)

/-- The blocks a sequence of `AddBlock` calls creates, in creation order,
starting on top of `prev`: each entry of `adds` is the payload and the
timestamp of one call. -/
def chainBlocksAux (prev : Block) : List (List Nat × Int) → List Block
  | [] => []
  | (data, ts) :: rest =>
    let b := NewBlock data prev.Hash ts
    b :: chainBlocksAux b rest

/-- The full chain in creation order: the genesis block, then the blocks of
the `AddBlock` calls. -/
def chainBlocks (ts0 : Int) (adds : List (List Nat × Int)) : List Block :=
  NewGenesisBlock ts0 :: chainBlocksAux (NewGenesisBlock ts0) adds

/-- Run a sequence of `AddBlock` calls against a chain state. -/
def chainBuildAux : Blockchain × DB → List (List Nat × Int) → Option (Blockchain × DB)
  | st, [] => some st
  | (bc, db), (data, ts) :: rest =>
    match bc.AddBlock db data ts with
    | none => none
    | some st => chainBuildAux st rest

/-- Initialize a chain on an empty store and run `adds.length` calls of
`AddBlock` against it. -/
def chainBuild (ts0 : Int) (adds : List (List Nat × Int)) : Option (Blockchain × DB) :=
  chainBuildAux (NewBlockchain none ts0) adds

/-- The last block of a nonempty chain written as head plus tail. -/
def lastBlock : Block → List Block → Block
  | b, [] => b
  | _, x :: xs => lastBlock x xs

/-! ## Shape lemmas for the digest -/

theorem processChunk_length (h chunk : List Nat) : (processChunk h chunk).length = 8 := rfl

theorem processChunks_length :
    ∀ (fuel : Nat) (h bytes : List Nat), h.length = 8 → (processChunks fuel h bytes).length = 8 := by
  intro fuel
  induction fuel with
  | zero => intro h bytes hl; exact hl
  | succ n ih => intro h bytes _; exact ih _ _ (processChunk_length _ _)

theorem flatMap4_length (h : List Nat) :
    (h.flatMap (fun w => [(w >>> 24) % 256, (w >>> 16) % 256, (w >>> 8) % 256, w % 256])).length
      = 4 * h.length := by
  induction h with
  | nil => rfl
  | cons x xs ih => simp [List.flatMap_cons, ih]; omega

/-- Every SHA-256 digest is 32 bytes long. -/
theorem sha256_length (msg : List Nat) : (sha256 msg).length = 32 := by
  unfold sha256
  rw [flatMap4_length, processChunks_length]
  rfl

/-- Every entry of a SHA-256 digest is a byte value. -/
theorem sha256_mem_lt (msg : List Nat) : ∀ x ∈ sha256 msg, x < 256 := by
  intro x hx
  unfold sha256 at hx
  simp only [List.mem_flatMap, List.mem_cons, List.not_mem_nil, or_false] at hx
  obtain ⟨w, -, hx⟩ := hx
  rcases hx with h | h | h | h <;> subst h <;> exact Nat.mod_lt _ (by norm_num)

theorem bytesToNat_foldl_lt {l : List Nat} (hb : ∀ x ∈ l, x < 256) :
    ∀ (acc B : Nat), acc < B → l.foldl (fun acc b => acc * 256 + b) acc < B * 256 ^ l.length := by
  induction l with
  | nil => intro acc B h; simpa using h
  | cons x xs ih =>
    intro acc B h
    have hx : x < 256 := hb x (List.mem_cons_self ..)
    have hxs : ∀ y ∈ xs, y < 256 := fun y hy => hb y (List.mem_cons_of_mem _ hy)
    have hacc : acc * 256 + x < B * 256 := by
      calc acc * 256 + x < acc * 256 + 256 := by omega
        _ = (acc + 1) * 256 := by ring
        _ ≤ B * 256 := Nat.mul_le_mul_right _ (by omega)
    have := ih hxs (acc * 256 + x) (B * 256) hacc
    calc (x :: xs).foldl (fun acc b => acc * 256 + b) acc
        = xs.foldl (fun acc b => acc * 256 + b) (acc * 256 + x) := rfl
      _ < B * 256 * 256 ^ xs.length := this
      _ = B * 256 ^ (x :: xs).length := by rw [List.length_cons]; ring

/-- A byte string read as a big-endian integer is below `256 ^ length`. -/
theorem bytesToNat_lt {l : List Nat} (hb : ∀ x ∈ l, x < 256) :
    bytesToNat l < 256 ^ l.length := by
  have := bytesToNat_foldl_lt hb 0 1 (by norm_num)
  simpa [bytesToNat] using this

/-- A digest read as an integer always fits in 256 bits. -/
theorem digest_lt_2_pow_256 (msg : List Nat) : bytesToNat (sha256 msg) < 2 ^ 256 := by
  have h := bytesToNat_lt (sha256_mem_lt msg)
  rw [sha256_length msg] at h
  calc bytesToNat (sha256 msg) < 256 ^ 32 := h
    _ = 2 ^ 256 := by norm_num

/-! ## The mining loop -/

/-- If some nonce within the remaining fuel satisfies the target, the loop
stops at the first such nonce and returns it with its own digest. -/
theorem RunGo_found (pow : ProofOfWork) :
    ∀ (fuel nonce : Nat) (h0 : List Nat),
      (∃ i, i < fuel ∧ pow.digestVal (nonce + i) < pow.target) →
      ∃ j, pow.RunGo fuel nonce h0 = (nonce + j, sha256 (pow.prepareData ((nonce + j : Nat) : Int)))
        ∧ pow.digestVal (nonce + j) < pow.target
        ∧ ∀ m, m < j → ¬ pow.digestVal (nonce + m) < pow.target := by
  intro fuel
  induction fuel with
  | zero => intro nonce h0 ⟨i, hi, _⟩; omega
  | succ n ih =>
    intro nonce h0 ⟨i, hi, hP⟩
    by_cases hfirst : pow.digestVal nonce < pow.target
    · refine ⟨0, ?_, by simpa using hfirst, by omega⟩
      have : bytesToNat (sha256 (pow.prepareData ((nonce : Nat) : Int))) < pow.target := hfirst
      simp only [ProofOfWork.RunGo, if_pos this, Nat.add_zero]
    · have hi1 : 1 ≤ i := by
        by_contra h
        exact hfirst (by simpa [Nat.lt_one_iff.mp (by omega : i < 1)] using hP)
      have hex : ∃ i', i' < n ∧ pow.digestVal (nonce + 1 + i') < pow.target := by
        refine ⟨i - 1, by omega, ?_⟩
        have h' : nonce + 1 + (i - 1) = nonce + i := by omega
        rw [h']
        exact hP
      obtain ⟨j, heq, hPj, hleast⟩ := ih (nonce + 1) (sha256 (pow.prepareData ((nonce : Nat) : Int))) hex
      refine ⟨j + 1, ?_, ?_, ?_⟩
      · have hnot : ¬ bytesToNat (sha256 (pow.prepareData ((nonce : Nat) : Int))) < pow.target := hfirst
        simp only [ProofOfWork.RunGo, if_neg hnot]
        rw [heq]
        congr 1 <;> [omega; (congr 2; omega)]
      · have : nonce + (j + 1) = nonce + 1 + j := by omega
        rw [this]; exact hPj
      · intro m hm
        rcases Nat.eq_zero_or_pos m with hm0 | hmpos
        · subst hm0; simpa using hfirst
        · have : nonce + m = nonce + 1 + (m - 1) := by omega
          rw [this]; exact hleast (m - 1) (by omega)

/-- If no nonce within the remaining fuel satisfies the target, the loop
falls out with the counter just past the last tried nonce and the digest of
that last nonce. -/
theorem RunGo_notFound (pow : ProofOfWork) :
    ∀ (fuel nonce : Nat) (h0 : List Nat),
      (∀ i, i ≤ fuel → ¬ pow.digestVal (nonce + i) < pow.target) →
      pow.RunGo (fuel + 1) nonce h0
        = (nonce + fuel + 1, sha256 (pow.prepareData ((nonce + fuel : Nat) : Int))) := by
  intro fuel
  induction fuel with
  | zero =>
    intro nonce h0 hno
    have hnot : ¬ bytesToNat (sha256 (pow.prepareData ((nonce : Nat) : Int))) < pow.target := by
      simpa using hno 0 (by omega)
    simp [ProofOfWork.RunGo, if_neg hnot]
  | succ n ih =>
    intro nonce h0 hno
    have hnot : ¬ bytesToNat (sha256 (pow.prepareData ((nonce : Nat) : Int))) < pow.target := by
      simpa using hno 0 (by omega)
    have hrest : ∀ i, i ≤ n → ¬ pow.digestVal (nonce + 1 + i) < pow.target := by
      intro i hi
      have : nonce + 1 + i = nonce + (i + 1) := by omega
      rw [this]; exact hno (i + 1) (by omega)
    show (if bytesToNat (sha256 (pow.prepareData ((nonce : Nat) : Int))) < pow.target
          then _ else pow.RunGo (n + 1) (nonce + 1) _) = _
    rw [if_neg hnot, ih (nonce + 1) _ hrest]
    congr 1 <;> [omega; (congr 2; omega)]

/-- When a satisfying nonce below `maxNonce` exists, `Run` returns the least
satisfying nonce together with its own digest. -/
theorem Run_spec (pow : ProofOfWork)
    (hex : ∃ i, i < maxNonce ∧ pow.digestVal i < pow.target) :
    pow.digestVal pow.Run.1 < pow.target
      ∧ pow.Run.2 = sha256 (pow.prepareData ((pow.Run.1 : Nat) : Int))
      ∧ ∀ m, m < pow.Run.1 → ¬ pow.digestVal m < pow.target := by
  obtain ⟨j, heq, hPj, hleast⟩ := RunGo_found pow maxNonce 0 (List.replicate 32 0)
    (by simpa using hex)
  have hrun : pow.Run = (j, sha256 (pow.prepareData ((j : Nat) : Int))) := by
    simpa [ProofOfWork.Run] using heq
  refine ⟨?_, ?_, ?_⟩
  · rw [hrun]; simpa using hPj
  · rw [hrun]
  · rw [hrun]; intro m hm; simpa using hleast m hm

/-- When nonce `0` already satisfies the target, `Run` returns it at once. -/
theorem Run_found0 (pow : ProofOfWork) (h0 : pow.digestVal 0 < pow.target) :
    pow.Run = (0, sha256 (pow.prepareData (0 : Int))) := by
  obtain ⟨j, heq, _, hleast⟩ := RunGo_found pow maxNonce 0 (List.replicate 32 0)
    ⟨0, by norm_num [maxNonce], by simpa using h0⟩
  have hj : j = 0 := by
    by_contra hne
    exact hleast 0 (by omega) (by simpa using h0)
  subst hj
  simpa [ProofOfWork.Run] using heq

theorem RunGo_hash_length (pow : ProofOfWork) :
    ∀ (fuel nonce : Nat) (h0 : List Nat), h0.length = 32 →
      (pow.RunGo fuel nonce h0).2.length = 32 := by
  intro fuel
  induction fuel with
  | zero => intro nonce h0 hl; exact hl
  | succ n ih =>
    intro nonce h0 _
    show (if bytesToNat (sha256 (pow.prepareData ((nonce : Nat) : Int))) < pow.target
          then _ else pow.RunGo n (nonce + 1) _).2.length = 32
    by_cases hc : bytesToNat (sha256 (pow.prepareData ((nonce : Nat) : Int))) < pow.target
    · rw [if_pos hc]; exact sha256_length _
    · rw [if_neg hc]; exact ih _ _ (sha256_length _)

/-- The hash returned by the mining search is always 32 bytes. -/
theorem Run_hash_length (pow : ProofOfWork) : pow.Run.2.length = 32 :=
  RunGo_hash_length pow maxNonce 0 _ (by simp)

/-- Every block `NewBlock` builds carries a 32-byte hash. -/
theorem NewBlock_hash_length (data prev : List Nat) (ts : Int) :
    (NewBlock data prev ts).Hash.length = 32 :=
  Run_hash_length _

/-- A 32-byte string is never the reserved tip-pointer key. -/
theorem hash_ne_lKey {l : List Nat} (hl : l.length = 32) : l ≠ lKey := by
  intro h
  rw [h] at hl
  simp [lKey] at hl

/-! ## Prepared data and validation -/

/-- The joined mining input is the plain concatenation of the five parts. -/
theorem prepareData_eq (pow : ProofOfWork) (nonce : Int) :
    pow.prepareData nonce
      = pow.block.PrevBlockHash ++ pow.block.Data ++ formatInt pow.block.Timestamp
          ++ formatInt nonce ++ formatInt (targetBits : Int) := by
  simp [ProofOfWork.prepareData, bytesJoin, List.intersperse]

/-- The prepared data reads only the previous hash, the payload and the
timestamp of the block, besides the nonce argument. -/
theorem prepareData_congr {pow pow' : ProofOfWork} (nonce : Int)
    (hp : pow.block.PrevBlockHash = pow'.block.PrevBlockHash)
    (hd : pow.block.Data = pow'.block.Data)
    (ht : pow.block.Timestamp = pow'.block.Timestamp) :
    pow.prepareData nonce = pow'.prepareData nonce := by
  rw [prepareData_eq, prepareData_eq, hp, hd, ht]

theorem Validate_eq_true_iff (pow : ProofOfWork) :
    pow.Validate = true ↔ bytesToNat (sha256 (pow.prepareData pow.block.Nonce)) < pow.target := by
  simp [ProofOfWork.Validate]

theorem Validate_eq_false_iff (pow : ProofOfWork) :
    pow.Validate = false
      ↔ ¬ bytesToNat (sha256 (pow.prepareData pow.block.Nonce)) < pow.target := by
  simp [ProofOfWork.Validate]

/-! ## Serializer round trip -/

theorem decNat_enc (n : Nat) (rest : List Nat) : decNat (encNat n ++ rest) = some (n, rest) := by
  induction n with
  | zero => rfl
  | succ m ih =>
    show decNat (1 :: (encNat m ++ rest)) = _
    rw [decNat, ih]
    rfl

theorem decBytes_enc (l rest : List Nat) : decBytes (encBytes l ++ rest) = some (l, rest) := by
  show decBytes (encNat l.length ++ l ++ rest) = _
  rw [decBytes, List.append_assoc, decNat_enc]
  simp [List.take_left, List.drop_left]

theorem decInt_enc (i : Int) (rest : List Nat) : decInt (encInt i ++ rest) = some (i, rest) := by
  cases i with
  | ofNat n =>
    show decInt (0 :: (encNat n ++ rest)) = _
    rw [decInt, decNat_enc]
    rfl
  | negSucc m =>
    show decInt (1 :: (encNat (m + 1) ++ rest)) = _
    rw [decInt, decNat_enc]
    simp [Int.negSucc_eq]

/-- Decoding a serialized block gives back exactly the block. -/
theorem DeseralizeBlock_Serialize (b : Block) : DeseralizeBlock b.Serialize = some b := by
  have h : b.Serialize
      = encInt b.Timestamp ++ (encBytes b.Data ++ (encBytes b.PrevBlockHash ++
          (encBytes b.Hash ++ (encInt b.Nonce ++ [])))) := by
    simp [Block.Serialize]
  rw [h]
  simp only [DeseralizeBlock, decInt_enc, decBytes_enc]

/-! ## Store lemmas and the chain invariant -/

theorem bGet_bPut_same (bkt : Bucket) (k v : List Nat) : bGet (bPut bkt k v) k = some v := by
  simp [bGet, bPut]

theorem bGet_bPut_ne (bkt : Bucket) (k v k' : List Nat) (h : k' ≠ k) :
    bGet (bPut bkt k v) k' = bGet bkt k' := by
  simp [bGet, bPut, h]

/-- The bucket holds the serialized record of every block of the list,
keyed by the block's hash. -/
def storesChain (bkt : Bucket) (chain : List Block) : Prop :=
  ∀ b ∈ chain, bGet bkt b.Hash = some b.Serialize

/-- The hash of the first block of a chain written tip first. -/
def headHashD : List Block → List Nat
  | [] => []
  | b :: _ => b.Hash

theorem headHashD_of_head? {l : List Block} {b : Block} (h : l.head? = some b) :
    headHashD l = b.Hash := by
  cases l with
  | nil => simp at h
  | cons x xs => simp at h; simp [headHashD, h]

theorem lastBlock_cons_getLast? : ∀ (l : List Block) (b : Block),
    (b :: l).getLast? = some (lastBlock b l) := by
  intro l
  induction l with
  | nil => intro b; rfl
  | cons x xs ih =>
    intro b
    rw [List.getLast?_cons_cons, ih x]
    rfl

theorem chainBlocksAux_length : ∀ (adds : List (List Nat × Int)) (b : Block),
    (chainBlocksAux b adds).length = adds.length := by
  intro adds
  induction adds with
  | nil => intro b; rfl
  | cons p rest ih =>
    intro b
    obtain ⟨data, ts⟩ := p
    simp [chainBlocksAux, ih]

theorem chainBlocksAux_hash_length : ∀ (adds : List (List Nat × Int)) (b : Block),
    ∀ x ∈ chainBlocksAux b adds, x.Hash.length = 32 := by
  intro adds
  induction adds with
  | nil => intro b x hx; simp [chainBlocksAux] at hx
  | cons p rest ih =>
    intro b x hx
    obtain ⟨data, ts⟩ := p
    simp only [chainBlocksAux, List.mem_cons] at hx
    rcases hx with h | h
    · subst h; exact NewBlock_hash_length ..
    · exact ih _ x h

theorem chainBlocks_hash_length (ts0 : Int) (adds : List (List Nat × Int)) :
    ∀ x ∈ chainBlocks ts0 adds, x.Hash.length = 32 := by
  intro x hx
  simp only [chainBlocks, List.mem_cons] at hx
  rcases hx with h | h
  · subst h; exact NewBlock_hash_length ..
  · exact chainBlocksAux_hash_length _ _ x h

/-- Creation order is hash-linked: each block of the run points back at the
block it was mined on top of. -/
theorem chainBlocksAux_chain' : ∀ (adds : List (List Nat × Int)) (b : Block),
    List.Chain' (fun x y => y.PrevBlockHash = x.Hash) (b :: chainBlocksAux b adds) := by
  intro adds
  induction adds with
  | nil => intro b; simp [chainBlocksAux]
  | cons p rest ih =>
    intro b
    obtain ⟨data, ts⟩ := p
    simp only [chainBlocksAux]
    rw [List.chain'_cons]
    exact ⟨rfl, ih (NewBlock data b.Hash ts)⟩

/-- Running the `AddBlock` calls preserves the store invariant: the tip
pointer tracks the hash of the newest block and every block of the chain
stays retrievable, provided the hashes of the full chain are pairwise
distinct (no digest collision) and 32 bytes long. -/
theorem chainBuildAux_inv :
    ∀ (adds : List (List Nat × Int)) (bc : Blockchain) (bkt : Bucket)
      (chain : List Block) (last : Block),
      bc.tip = last.Hash →
      bGet bkt lKey = some last.Hash →
      storesChain bkt (chain ++ [last]) →
      (∀ b ∈ chain ++ [last] ++ chainBlocksAux last adds, b.Hash.length = 32) →
      ((chain ++ [last] ++ chainBlocksAux last adds).map Block.Hash).Pairwise (· ≠ ·) →
      ∃ bkt',
        chainBuildAux (bc, some bkt) adds
            = some ({ tip := (lastBlock last (chainBlocksAux last adds)).Hash }, some bkt')
          ∧ bGet bkt' lKey = some (lastBlock last (chainBlocksAux last adds)).Hash
          ∧ storesChain bkt' (chain ++ [last] ++ chainBlocksAux last adds) := by
  intro adds
  induction adds with
  | nil =>
    intro bc bkt chain last htip hl hstore _ _
    refine ⟨bkt, ?_, by simpa [chainBlocksAux, lastBlock] using hl, ?_⟩
    · simp only [chainBuildAux, chainBlocksAux, lastBlock]
      have : bc = { tip := last.Hash } := by cases bc; simpa using htip
      rw [this]
    · simpa [chainBlocksAux] using hstore
  | cons p rest ih =>
    intro bc bkt chain last htip hl hstore hlen hdist
    obtain ⟨data, ts⟩ := p
    set nb := NewBlock data last.Hash ts with hnb
    have hauxeq : chainBlocksAux last ((data, ts) :: rest) = nb :: chainBlocksAux nb rest := rfl
    have hnbmem : nb ∈ chain ++ [last] ++ chainBlocksAux last ((data, ts) :: rest) := by
      rw [hauxeq]; simp
    have hnblen : nb.Hash.length = 32 := hlen nb hnbmem
    -- the write transaction of this AddBlock call
    set bkt2 := bPut (bPut bkt nb.Hash nb.Serialize) lKey nb.Hash with hbkt2
    have hadd : bc.AddBlock (some bkt) data ts = some ({ tip := nb.Hash }, some bkt2) := by
      simp only [Blockchain.AddBlock, bGetD, hl, Option.getD_some]
    -- distinctness of the new hash from all already stored hashes
    have hdist' : ∀ b ∈ chain ++ [last], b.Hash ≠ nb.Hash := by
      intro b hb
      have hp := (List.pairwise_map.mp hdist)
      rw [hauxeq] at hp
      exact (List.pairwise_append.mp hp).2.2 b hb nb (by simp)
    have hstore2 : storesChain bkt2 ((chain ++ [last]) ++ [nb]) := by
      intro b hb
      rcases List.mem_append.mp hb with hb | hb
      · have hbl : b.Hash.length = 32 := hlen b (List.mem_append_left _ hb)
        rw [hbkt2, bGet_bPut_ne _ _ _ _ (hash_ne_lKey hbl),
            bGet_bPut_ne _ _ _ _ (hdist' b hb)]
        exact hstore b hb
      · have hbnb : b = nb := by simpa using hb
        subst hbnb
        rw [hbkt2, bGet_bPut_ne _ _ _ _ (hash_ne_lKey hnblen), bGet_bPut_same]
    have hl2 : bGet bkt2 lKey = some nb.Hash := by
      rw [hbkt2, bGet_bPut_same]
    have hlen2 : ∀ b ∈ (chain ++ [last]) ++ [nb] ++ chainBlocksAux nb rest, b.Hash.length = 32 := by
      intro b hb
      apply hlen b
      rw [hauxeq]
      simpa [List.mem_append, List.mem_cons, or_assoc] using hb
    have hdist2 : (((chain ++ [last]) ++ [nb] ++ chainBlocksAux nb rest).map Block.Hash).Pairwise
        (· ≠ ·) := by
      have : (chain ++ [last]) ++ [nb] ++ chainBlocksAux nb rest
          = chain ++ [last] ++ chainBlocksAux last ((data, ts) :: rest) := by
        rw [hauxeq]; simp
      rw [this]
      exact hdist
    obtain ⟨bkt', hrun, hl', hstore'⟩ :=
      ih { tip := nb.Hash } bkt2 (chain ++ [last]) nb rfl hl2 hstore2 hlen2 hdist2
    refine ⟨bkt', ?_, ?_, ?_⟩
    · show chainBuildAux (bc, some bkt) ((data, ts) :: rest) = _
      simp only [chainBuildAux, hadd, hrun, hauxeq, lastBlock]
    · rw [hauxeq]
      simpa [lastBlock] using hl'
    · rw [hauxeq]
      intro b hb
      apply hstore' b
      simpa [List.mem_append, List.mem_cons, or_assoc] using hb

/-- Iterating with `Next` along a stored, hash-linked chain written tip
first yields exactly that chain. -/
theorem iterN_spec : ∀ (rchain : List Block) (bkt : Bucket),
    (∀ b ∈ rchain, bGet bkt b.Hash = some b.Serialize) →
    List.Chain' (fun x y => x.PrevBlockHash = y.Hash) rchain →
    iterN (some bkt) (headHashD rchain) rchain.length = some rchain := by
  intro rchain
  induction rchain with
  | nil => intro bkt _ _; rfl
  | cons b rest ih =>
    intro bkt hstore hchain
    have hb : bGet bkt b.Hash = some b.Serialize := hstore b (by simp)
    have hnext : iterNext (some bkt) (headHashD (b :: rest)) = some (b, b.PrevBlockHash) := by
      simp only [iterNext, headHashD, bGetD, hb, Option.getD_some, DeseralizeBlock_Serialize]
    show iterN (some bkt) (headHashD (b :: rest)) (rest.length + 1) = some (b :: rest)
    rw [iterN, hnext]
    show (iterN (some bkt) b.PrevBlockHash rest.length).map (fun l => b :: l) = some (b :: rest)
    cases rest with
    | nil => rfl
    | cons c rest' =>
      have hbc : b.PrevBlockHash = c.Hash := (List.chain'_cons.mp hchain).1
      have hrest : iterN (some bkt) c.Hash (c :: rest').length = some (c :: rest') := by
        simpa [headHashD] using
          ih bkt (fun x hx => hstore x (List.mem_cons_of_mem _ hx)) (List.chain'_cons.mp hchain).2
      rw [hbc]
      rw [hrest]
      rfl

/-! ## Concrete mined fixtures

Timestamps found by searching the real SHA-256 so that the very first
nonce already meets the difficulty-24 target; this keeps kernel evaluation
of the mining loop to a single digest per block.  The digests are fixed as
literals and checked by `decide`. -/

/-- A timestamp at which the genesis payload mines at nonce 0. -/
def tsG : Int := 1714099618

/-- The candidate genesis block before mining, at timestamp `tsG`. -/
def preGenesisBlock : Block :=
  { Timestamp := tsG, Data := genesisData, PrevBlockHash := [], Hash := [], Nonce := 0 }

/-- The proof-of-work instance of the candidate genesis block. -/
def powG : ProofOfWork := NewProofOfWork preGenesisBlock

/-- The digest of the genesis preparation at nonce 0 (below the target). -/
def hG : List Nat :=
  [0, 0, 0, 59, 179, 126, 22, 243, 115, 27, 28, 201, 60, 251, 108, 174,
   5, 245, 2, 227, 213, 241, 148, 180, 89, 242, 78, 109, 80, 145, 228, 150]

/-- The digest of the genesis preparation at nonce 1 (not below the target). -/
def hGn1 : List Nat :=
  [213, 48, 194, 131, 137, 171, 163, 115, 108, 46, 107, 52, 223, 54, 190, 134,
   76, 2, 9, 101, 33, 21, 157, 199, 150, 209, 235, 52, 182, 108, 62, 121]

/-- The ASCII bytes of `"First Block"`. -/
def firstData : List Nat := [70, 105, 114, 115, 116, 32, 66, 108, 111, 99, 107]

/-- A timestamp at which `"First Block"` on top of the genesis hash mines at
nonce 0. -/
def tsF : Int := 1725064761

/-- The candidate first appended block before mining. -/
def preFirstBlock : Block :=
  { Timestamp := tsF, Data := firstData, PrevBlockHash := hG, Hash := [], Nonce := 0 }

/-- The proof-of-work instance of the candidate first appended block. -/
def powF : ProofOfWork := NewProofOfWork preFirstBlock

/-- The digest of the first-block preparation at nonce 0 (below the target). -/
def hF : List Nat :=
  [0, 0, 0, 103, 6, 175, 206, 181, 227, 128, 150, 31, 253, 173, 41, 21,
   155, 101, 187, 129, 182, 13, 246, 89, 207, 14, 17, 217, 171, 132, 119, 69]

set_option maxRecDepth 100000 in
theorem sha_g0 : sha256 (powG.prepareData 0) = hG := by decide

set_option maxRecDepth 100000 in
theorem sha_g1 : sha256 (powG.prepareData 1) = hGn1 := by decide

set_option maxRecDepth 100000 in
theorem sha_f0 : sha256 (powF.prepareData 0) = hF := by decide

theorem hG_lt : bytesToNat hG < 2 ^ 232 := by decide

theorem hGn1_not_lt : ¬ bytesToNat hGn1 < 2 ^ 232 := by decide

theorem hF_lt : bytesToNat hF < 2 ^ 232 := by decide

/-- The target every `NewProofOfWork` carries, in closed form. -/
theorem NewProofOfWork_target (b : Block) : (NewProofOfWork b).target = 2 ^ 232 := by
  show 1 <<< (256 - targetBits) = 2 ^ 232
  norm_num [targetBits, Nat.shiftLeft_eq]

theorem powG_found0 : powG.digestVal 0 < powG.target := by
  have h : powG.digestVal 0 = bytesToNat hG := by
    show bytesToNat (sha256 (powG.prepareData ((0 : Nat) : Int))) = bytesToNat hG
    rw [Nat.cast_zero, sha_g0]
  rw [h, powG, NewProofOfWork_target]
  exact hG_lt

theorem powF_found0 : powF.digestVal 0 < powF.target := by
  have h : powF.digestVal 0 = bytesToNat hF := by
    show bytesToNat (sha256 (powF.prepareData ((0 : Nat) : Int))) = bytesToNat hF
    rw [Nat.cast_zero, sha_f0]
  rw [h, powF, NewProofOfWork_target]
  exact hF_lt

set_option maxRecDepth 100000 in
/-- The hash `NewGenesisBlock` mines at timestamp `tsG`. -/
theorem genesis_hash_tsG : (NewGenesisBlock tsG).Hash = hG := by
  show powG.Run.2 = hG
  rw [Run_found0 powG powG_found0]
  exact sha_g0

set_option maxRecDepth 100000 in
/-- The hash the first appended block mines at timestamp `tsF`. -/
theorem first_hash_tsF : (NewBlock firstData hG tsF).Hash = hF := by
  show powF.Run.2 = hF
  rw [Run_found0 powF powF_found0]
  exact sha_f0

/-- Whenever some nonce below `maxNonce` meets the target, the block
`NewBlock` mines validates. -/
theorem NewBlock_validate_of_found (data prev : List Nat) (ts : Int)
    (hex : ∃ i, i < maxNonce ∧
        (NewProofOfWork { Timestamp := ts, Data := data, PrevBlockHash := prev,
                          Hash := [], Nonce := 0 }).digestVal i
          < (NewProofOfWork { Timestamp := ts, Data := data, PrevBlockHash := prev,
                              Hash := [], Nonce := 0 }).target) :
    (NewProofOfWork (NewBlock data prev ts)).Validate = true := by
  rw [Validate_eq_true_iff]
  have hval := (Run_spec _ hex).1
  have hnonce : (NewProofOfWork (NewBlock data prev ts)).block.Nonce
      = (((NewProofOfWork { Timestamp := ts, Data := data, PrevBlockHash := prev,
                            Hash := [], Nonce := 0 }).Run.1 : Nat) : Int) := rfl
  have htarget : (NewProofOfWork (NewBlock data prev ts)).target
      = (NewProofOfWork { Timestamp := ts, Data := data, PrevBlockHash := prev,
                          Hash := [], Nonce := 0 }).target := rfl
  rw [hnonce, htarget,
      @prepareData_congr (NewProofOfWork (NewBlock data prev ts))
        (NewProofOfWork { Timestamp := ts, Data := data, PrevBlockHash := prev,
                          Hash := [], Nonce := 0 })
        (((NewProofOfWork { Timestamp := ts, Data := data, PrevBlockHash := prev,
                            Hash := [], Nonce := 0 }).Run.1 : Nat) : Int) rfl rfl rfl]
  exact hval

/-! ## The claims -/

/-- C1.  Every block the mining search produces through `NewBlock`
validates (whenever the search can succeed at all, i.e. some nonce below
`maxNonce` meets the target), and a block whose nonce is changed to any
value whose digest does not fall strictly below the target fails
`Validate`. -/
theorem mined_block_validates :
    (∀ (data prev : List Nat) (ts : Int),
        (∃ i, i < maxNonce ∧
            (NewProofOfWork { Timestamp := ts, Data := data, PrevBlockHash := prev,
                              Hash := [], Nonce := 0 }).digestVal i
              < (NewProofOfWork { Timestamp := ts, Data := data, PrevBlockHash := prev,
                                  Hash := [], Nonce := 0 }).target) →
        (NewProofOfWork (NewBlock data prev ts)).Validate = true)
  ∧ (∀ (b : Block) (n : Int),
        ¬ bytesToNat (sha256 ((NewProofOfWork { b with Nonce := n }).prepareData n))
            < (NewProofOfWork { b with Nonce := n }).target →
        (NewProofOfWork { b with Nonce := n }).Validate = false) := by
  constructor
  · intro data prev ts hex
    exact NewBlock_validate_of_found data prev ts hex
  · intro b n hnot
    rw [Validate_eq_false_iff]
    exact hnot

/-- Witness for C1 at the concrete mined genesis fixture: the block mined
at timestamp `tsG` validates, and the same block with its nonce moved to 1
(whose digest misses the target) fails validation. -/
theorem mined_block_validates_witness :
    (NewProofOfWork (NewBlock genesisData [] tsG)).Validate = true
  ∧ (NewProofOfWork { preGenesisBlock with Nonce := 1 }).Validate = false := by
  constructor
  · exact mined_block_validates.1 genesisData [] tsG
      ⟨0, by norm_num [maxNonce], powG_found0⟩
  · apply mined_block_validates.2 preGenesisBlock 1
    have hprep : (NewProofOfWork { preGenesisBlock with Nonce := 1 }).prepareData 1
        = powG.prepareData 1 :=
      @prepareData_congr (NewProofOfWork { preGenesisBlock with Nonce := 1 }) powG 1 rfl rfl rfl
    rw [hprep, sha_g1, NewProofOfWork_target]
    exact hGn1_not_lt

/-- C2.  The mining input is exactly the concatenation, without
delimiters, of the raw previous hash, the raw payload, and the decimal
ASCII of the timestamp, the nonce and the difficulty; the target is
`2 ^ (256 - targetBits)` with `targetBits = 24`. -/
theorem prepare_layout_and_target :
    (∀ (pow : ProofOfWork) (nonce : Int),
        pow.prepareData nonce
          = pow.block.PrevBlockHash ++ pow.block.Data ++ formatInt pow.block.Timestamp
              ++ formatInt nonce ++ formatInt (targetBits : Int))
  ∧ (∀ b : Block, (NewProofOfWork b).target = 2 ^ (256 - targetBits))
  ∧ targetBits = 24 := by
  refine ⟨fun pow nonce => prepareData_eq pow nonce, fun b => ?_, rfl⟩
  show 1 <<< (256 - targetBits) = 2 ^ (256 - targetBits)
  rw [Nat.shiftLeft_eq, one_mul]

/-- C3.  When any nonce below `maxNonce` meets the target, the mining
search returns the smallest such nonce, paired with that nonce's own
digest as the block hash; every smaller nonce has a digest not below the
target. -/
theorem run_returns_least_nonce (pow : ProofOfWork)
    (hex : ∃ i, i < maxNonce ∧ pow.digestVal i < pow.target) :
    pow.digestVal pow.Run.1 < pow.target
      ∧ pow.Run.2 = sha256 (pow.prepareData ((pow.Run.1 : Nat) : Int))
      ∧ ∀ m, m < pow.Run.1 → ¬ pow.digestVal m < pow.target :=
  Run_spec pow hex

/-- Any proof-of-work value whose target is `2 ^ 256`: every digest meets
such a target, so the witness needs no concrete digest computation. -/
def powTrivial : ProofOfWork := { block := preGenesisBlock, target := 2 ^ 256 }

/-- Witness for C3 at a target every digest satisfies: nonce 0 already
meets it, so the hypothesis holds at `i = 0` by the generic 256-bit bound
on digests. -/
theorem run_returns_least_nonce_witness :
    powTrivial.digestVal powTrivial.Run.1 < powTrivial.target
      ∧ powTrivial.Run.2 = sha256 (powTrivial.prepareData ((powTrivial.Run.1 : Nat) : Int))
      ∧ ∀ m, m < powTrivial.Run.1 → ¬ powTrivial.digestVal m < powTrivial.target :=
  run_returns_least_nonce powTrivial
    ⟨0, by norm_num [maxNonce], digest_lt_2_pow_256 (powTrivial.prepareData ((0 : Nat) : Int))⟩

/-- C4.  Deserializing a serialized block restores it field for field, for
every block, including empty payload and empty previous hash. -/
theorem serialize_roundtrip : ∀ b : Block, DeseralizeBlock b.Serialize = some b :=
  DeseralizeBlock_Serialize

/-- C9.  If no nonce strictly below `maxNonce = 2^63 - 1` meets the
target, the loop exits with the counter at `2^63 - 1` and the digest of
the last tried nonce `2^63 - 2`; the returned pair does not satisfy the
target check. -/
theorem run_exhausted (pow : ProofOfWork)
    (hno : ∀ i, i < maxNonce → ¬ pow.digestVal i < pow.target) :
    pow.Run = (maxNonce, sha256 (pow.prepareData ((maxNonce - 1 : Nat) : Int)))
      ∧ ¬ bytesToNat pow.Run.2 < pow.target
      ∧ maxNonce = 2 ^ 63 - 1 := by
  have hsplit : maxNonce = 9223372036854775806 + 1 := by norm_num [maxNonce]
  have hno' : ∀ i, i ≤ 9223372036854775806 → ¬ pow.digestVal (0 + i) < pow.target := by
    intro i hi
    rw [Nat.zero_add]
    exact hno i (by rw [hsplit]; omega)
  have hrun : pow.Run = (maxNonce, sha256 (pow.prepareData ((maxNonce - 1 : Nat) : Int))) := by
    show pow.RunGo maxNonce 0 (List.replicate 32 0) = _
    rw [hsplit, RunGo_notFound pow 9223372036854775806 0 _ hno']
  refine ⟨hrun, ?_, by norm_num [maxNonce]⟩
  rw [hrun]
  exact hno (maxNonce - 1) (by norm_num [maxNonce])

/-- A proof-of-work value with target 0: no digest is ever below it, so
the exhaustion hypothesis holds vacuously. -/
def powZero : ProofOfWork := { block := preGenesisBlock, target := 0 }

/-- Witness for C9 at target 0, where the exhaustion hypothesis is
discharged by arithmetic. -/
theorem run_exhausted_witness :
    powZero.Run = (maxNonce, sha256 (powZero.prepareData ((maxNonce - 1 : Nat) : Int)))
      ∧ ¬ bytesToNat powZero.Run.2 < powZero.target
      ∧ maxNonce = 2 ^ 63 - 1 :=
  run_exhausted powZero (fun _i _ => Nat.not_lt_zero _)

/-- C10.  The genesis block is built by the very same mining path as every
other block — `NewBlock` on the payload `"Genesis Block"` and an empty
previous hash — and (whenever the search can succeed) it therefore also
satisfies the proof-of-work target. -/
theorem genesis_same_mining_path (ts : Int) :
    NewGenesisBlock ts = NewBlock genesisData [] ts
      ∧ (NewGenesisBlock ts).Data = genesisData
      ∧ (NewGenesisBlock ts).PrevBlockHash = []
      ∧ ((∃ i, i < maxNonce ∧
            (NewProofOfWork { Timestamp := ts, Data := genesisData, PrevBlockHash := [],
                              Hash := [], Nonce := 0 }).digestVal i
              < (NewProofOfWork { Timestamp := ts, Data := genesisData, PrevBlockHash := [],
                                  Hash := [], Nonce := 0 }).target) →
          (NewProofOfWork (NewGenesisBlock ts)).Validate = true) := by
  refine ⟨rfl, rfl, rfl, fun hex => ?_⟩
  exact NewBlock_validate_of_found genesisData [] ts hex

/-- Witness for C10 at the concrete mined genesis timestamp. -/
theorem genesis_same_mining_path_witness :
    NewGenesisBlock tsG = NewBlock genesisData [] tsG
      ∧ (NewGenesisBlock tsG).Data = genesisData
      ∧ (NewGenesisBlock tsG).PrevBlockHash = []
      ∧ (NewProofOfWork (NewGenesisBlock tsG)).Validate = true := by
  obtain ⟨h1, h2, h3, h4⟩ := genesis_same_mining_path tsG
  exact ⟨h1, h2, h3, h4 ⟨0, by norm_num [maxNonce], powG_found0⟩⟩

/-- C6.  `NewBlockchain` is idempotent: on a store whose bucket already
exists it only reads the tip pointer into the in-memory tip and returns
the store unchanged; only on a store with no bucket does it mine a genesis
block and write the genesis record and the tip pointer. -/
theorem new_blockchain_idempotent (ts : Int) :
    (∀ bkt : Bucket, NewBlockchain (some bkt) ts = ({ tip := bGetD bkt lKey }, some bkt))
  ∧ ((NewBlockchain none ts).1.tip = (NewGenesisBlock ts).Hash
      ∧ dbGet (NewBlockchain none ts).2 lKey = some (NewGenesisBlock ts).Hash
      ∧ dbGet (NewBlockchain none ts).2 (NewGenesisBlock ts).Hash
          = some (NewGenesisBlock ts).Serialize) := by
  refine ⟨fun bkt => rfl, rfl, ?_, ?_⟩
  · show bGet (bPut (bPut [] (NewGenesisBlock ts).Hash (NewGenesisBlock ts).Serialize)
        lKey (NewGenesisBlock ts).Hash) lKey = some (NewGenesisBlock ts).Hash
    rw [bGet_bPut_same]
  · show bGet (bPut (bPut [] (NewGenesisBlock ts).Hash (NewGenesisBlock ts).Serialize)
        lKey (NewGenesisBlock ts).Hash) (NewGenesisBlock ts).Hash
        = some (NewGenesisBlock ts).Serialize
    have hne : (NewGenesisBlock ts).Hash ≠ lKey :=
      hash_ne_lKey (NewBlock_hash_length genesisData [] ts)
    rw [bGet_bPut_ne _ _ _ _ hne, bGet_bPut_same]

/-- The block an `AddBlock` call mines on a given bucket: `NewBlock` on
the payload and the stored tip pointer. -/
def minedOn (bkt : Bucket) (data : List Nat) (ts : Int) : Block :=
  NewBlock data (bGetD bkt lKey) ts

/-- C7.  A successful `AddBlock` performs exactly two writes inside its
transaction — the new record keyed by the new block's hash, and the tip
pointer overwritten with that hash — and every other key keeps the value
it had before. -/
theorem addblock_two_writes (bc : Blockchain) (bkt : Bucket) (data : List Nat) (ts : Int) :
    ∃ bkt' : Bucket,
      bc.AddBlock (some bkt) data ts = some ({ tip := (minedOn bkt data ts).Hash }, some bkt')
        ∧ bkt' = bPut (bPut bkt (minedOn bkt data ts).Hash (minedOn bkt data ts).Serialize)
            lKey (minedOn bkt data ts).Hash
        ∧ bGet bkt' (minedOn bkt data ts).Hash = some (minedOn bkt data ts).Serialize
        ∧ bGet bkt' lKey = some (minedOn bkt data ts).Hash
        ∧ ∀ k, k ≠ lKey → k ≠ (minedOn bkt data ts).Hash → bGet bkt' k = bGet bkt k := by
  refine ⟨bPut (bPut bkt (minedOn bkt data ts).Hash (minedOn bkt data ts).Serialize)
      lKey (minedOn bkt data ts).Hash, rfl, rfl, ?_, bGet_bPut_same .., ?_⟩
  · have hne : (minedOn bkt data ts).Hash ≠ lKey :=
      hash_ne_lKey (NewBlock_hash_length data (bGetD bkt lKey) ts)
    rw [bGet_bPut_ne _ _ _ _ hne, bGet_bPut_same]
  · intro k hkl hkh
    rw [bGet_bPut_ne _ _ _ _ hkl, bGet_bPut_ne _ _ _ _ hkh]

/-- Witness for C7 on a concrete one-record bucket, with the frame
property instantiated at the pre-existing key. -/
theorem addblock_two_writes_witness :
    ∃ bkt' : Bucket,
      Blockchain.AddBlock { tip := [] } (some [([5, 5], [9])]) [65] 7
          = some ({ tip := (minedOn [([5, 5], [9])] [65] 7).Hash }, some bkt')
        ∧ bkt' = bPut (bPut [([5, 5], [9])] (minedOn [([5, 5], [9])] [65] 7).Hash
            (minedOn [([5, 5], [9])] [65] 7).Serialize) lKey (minedOn [([5, 5], [9])] [65] 7).Hash
        ∧ bGet bkt' (minedOn [([5, 5], [9])] [65] 7).Hash
            = some (minedOn [([5, 5], [9])] [65] 7).Serialize
        ∧ bGet bkt' lKey = some (minedOn [([5, 5], [9])] [65] 7).Hash
        ∧ bGet bkt' [5, 5] = bGet [([5, 5], [9])] [5, 5] := by
  obtain ⟨bkt', h1, h2, h3, h4, h5⟩ :=
    addblock_two_writes { tip := [] } [([5, 5], [9])] [65] 7
  refine ⟨bkt', h1, h2, h3, h4, h5 [5, 5] (by decide) ?_⟩
  intro hk
  have hlen := NewBlock_hash_length [65] (bGetD [([5, 5], [9])] lKey) 7
  rw [show (minedOn [([5, 5], [9])] [65] 7).Hash = (NewBlock [65] (bGetD [([5, 5], [9])] lKey) 7).Hash from rfl] at hk
  rw [← hk] at hlen
  simp at hlen

/-- C8.  The code path for a hash that was never written: `bolt` returns a
nil slice, and `Next` feeds it to `DeseralizeBlock`, whose decode failure
is a `log.Fatal` (modelled `none`) — the process aborts instead of
returning a not-found result.  The first conjunct shows the key is indeed
absent from the store. -/
theorem next_unknown_hash_aborts :
    bGet [(lKey, [42])] [7] = none
      ∧ DeseralizeBlock [] = none
      ∧ iterNext (some [(lKey, [42])]) [7] = none := by
  exact ⟨by decide, rfl, rfl⟩

/-- C5.  Build a chain from genesis with `N = adds.length` calls of
`AddBlock` (whose mined hashes are pairwise distinct — no digest
collision); then iterating `N + 1` times from the tip yields the blocks
newest first, each block's `PrevBlockHash` equals the `Hash` of the next
block yielded, and the last block yielded is the genesis block, whose
`PrevBlockHash` is empty. -/
theorem chain_linkage_iteration (ts0 : Int) (adds : List (List Nat × Int))
    (hdist : ((chainBlocks ts0 adds).map Block.Hash).Pairwise (fun x y => x ≠ y)) :
    ∃ (bc : Blockchain) (bkt : Bucket),
      chainBuild ts0 adds = some (bc, some bkt)
        ∧ iterN (some bkt) bc.tip (adds.length + 1) = some (chainBlocks ts0 adds).reverse
        ∧ List.Chain' (fun x y => x.PrevBlockHash = y.Hash) ((chainBlocks ts0 adds).reverse)
        ∧ ((chainBlocks ts0 adds).reverse).getLast? = some (NewGenesisBlock ts0)
        ∧ (NewGenesisBlock ts0).PrevBlockHash = [] := by
  set g := NewGenesisBlock ts0 with hg
  have hinit : NewBlockchain none ts0
      = ({ tip := g.Hash }, some (bPut (bPut [] g.Hash g.Serialize) lKey g.Hash)) := rfl
  set bkt0 := bPut (bPut [] g.Hash g.Serialize) lKey g.Hash with hbkt0
  have hglen : g.Hash.length = 32 := NewBlock_hash_length genesisData [] ts0
  have hgl : bGet bkt0 lKey = some g.Hash := bGet_bPut_same ..
  have hstore0 : storesChain bkt0 ([] ++ [g]) := by
    intro b hb
    have hbg : b = g := by simpa using hb
    subst hbg
    rw [hbkt0, bGet_bPut_ne _ _ _ _ (hash_ne_lKey hglen), bGet_bPut_same]
  have hlist : [] ++ [g] ++ chainBlocksAux g adds = chainBlocks ts0 adds := by
    simp [chainBlocks, hg]
  have hlen : ∀ b ∈ [] ++ [g] ++ chainBlocksAux g adds, b.Hash.length = 32 := by
    rw [hlist]
    exact chainBlocks_hash_length ts0 adds
  have hdist' : (([] ++ [g] ++ chainBlocksAux g adds).map Block.Hash).Pairwise (· ≠ ·) := by
    rw [hlist]
    exact hdist
  obtain ⟨bkt', hrun, _, hstore'⟩ :=
    chainBuildAux_inv adds { tip := g.Hash } bkt0 [] g rfl hgl hstore0 hlen hdist'
  have hchainRev : List.Chain' (fun x y => x.PrevBlockHash = y.Hash)
      ((chainBlocks ts0 adds).reverse) := by
    rw [List.chain'_reverse]
    rw [show chainBlocks ts0 adds = g :: chainBlocksAux g adds from rfl]
    exact chainBlocksAux_chain' adds g
  refine ⟨{ tip := (lastBlock g (chainBlocksAux g adds)).Hash }, bkt', ?_, ?_, hchainRev, ?_, rfl⟩
  · show chainBuildAux (NewBlockchain none ts0) adds = _
    rw [hinit]
    exact hrun
  · have hstoreRev : ∀ b ∈ (chainBlocks ts0 adds).reverse, bGet bkt' b.Hash = some b.Serialize := by
      intro b hb
      apply hstore' b
      rw [hlist]
      exact List.mem_reverse.mp hb
    have hhead : headHashD ((chainBlocks ts0 adds).reverse)
        = (lastBlock g (chainBlocksAux g adds)).Hash := by
      apply headHashD_of_head?
      rw [List.head?_reverse]
      rw [show chainBlocks ts0 adds = g :: chainBlocksAux g adds from rfl]
      exact lastBlock_cons_getLast? (chainBlocksAux g adds) g
    have hlenEq : ((chainBlocks ts0 adds).reverse).length = adds.length + 1 := by
      simp [chainBlocks, chainBlocksAux_length]
    have hiter := iterN_spec ((chainBlocks ts0 adds).reverse) bkt' hstoreRev hchainRev
    rw [hhead, hlenEq] at hiter
    exact hiter
  · rw [List.getLast?_reverse]
    rw [show chainBlocks ts0 adds = g :: chainBlocksAux g adds from rfl]
    rfl

/-- Witness for C5: a two-block chain at the concrete mined timestamps,
whose two hashes are distinct by computation. -/
theorem chain_linkage_iteration_witness :
    ∃ (bc : Blockchain) (bkt : Bucket),
      chainBuild tsG [(firstData, tsF)] = some (bc, some bkt)
        ∧ iterN (some bkt) bc.tip 2 = some (chainBlocks tsG [(firstData, tsF)]).reverse
        ∧ List.Chain' (fun x y => x.PrevBlockHash = y.Hash)
            ((chainBlocks tsG [(firstData, tsF)]).reverse)
        ∧ ((chainBlocks tsG [(firstData, tsF)]).reverse).getLast? = some (NewGenesisBlock tsG)
        ∧ (NewGenesisBlock tsG).PrevBlockHash = [] := by
  apply chain_linkage_iteration tsG [(firstData, tsF)]
  have hm : chainBlocks tsG [(firstData, tsF)]
      = [NewGenesisBlock tsG, NewBlock firstData (NewGenesisBlock tsG).Hash tsF] := rfl
  have hmap : (chainBlocks tsG [(firstData, tsF)]).map Block.Hash = [hG, hF] := by
    rw [hm]
    simp only [List.map_cons, List.map_nil]
    rw [genesis_hash_tsG, first_hash_tsF]
  rw [hmap]
  decide

end GoChain
